import Mathlib

/-!
Verification of the sampling/rendering core of the `bandping` repository
(`bandwidth.py`, `pingmon.py`).

Numeric samples (byte rates, latencies in ms) are modelled as rationals `ℚ`;
Python's `int()` truncation on the non-negative quantities appearing here is
floor, modelled with `Int.floor`/`Nat` division.
-/

namespace Bandping

/-- `safe_diff(current, previous)` from `bandwidth.py`:
handles counter wrap-around / overflow by returning `current` itself when
`current < previous`, otherwise the difference. -/
def safe_diff (current previous : ℚ) : ℚ :=
  if current < previous then current else current - previous

/-- The counter-delta computation of the bandwidth monitor:
`safe_diff(cur.bytes_recv, prev.bytes_recv) / INTERVAL` in
`monitor_bandwidth.poll_loop`, with the elapsed time `t` in the place of the
configured interval. -/
def counterDelta (prev curr t : ℚ) : ℚ :=
  safe_diff curr prev / t

/-- `data[-1]` on a list, as used by the padding branch of
`render_chart_precise` (the list is non-empty at every real call site). -/
def lastOf (l : List ℚ) : ℚ :=
  l.getLast?.getD 0

/-- The `n == 1` branch of `render_chart_precise`: a single sample is
duplicated (`data = [data[0], data[0]]`). -/
def dupSingle (data : List ℚ) : List ℚ :=
  match data with
  | [v] => [v, v]
  | _ => data

/-- Python `min(data)` (the call sites only use non-empty lists). -/
def listMin : List ℚ → ℚ
  | [] => 0
  | x :: xs => xs.foldl min x

/-- Python `max(data)` (the call sites only use non-empty lists). -/
def listMax : List ℚ → ℚ
  | [] => 0
  | x :: xs => xs.foldl max x

/-- One bucket mean of the compress branch of `render_chart_precise`:
`chunk = data[start:end]; sum(chunk)/len(chunk)`. -/
def bucketMean (data : List ℚ) (start stop : ℕ) : ℚ :=
  ((data.drop start).take (stop - start)).sum /
    (((data.drop start).take (stop - start)).length : ℚ)

/-- The width-normalization step of `render_chart_precise`:
compress to exactly `width` bucket means when `n > width`
(`start = int(i * n/width)`, `end = int((i+1) * n/width)`, exact floors since
all quantities are non-negative), pad on the right with `data[-1]` when
`n < width`, otherwise pass through.  (When `width = 0` the compress branch
produces the empty list, exactly as `range(0)` does in the source, so the
`step = n / width if width else 1` guard is immaterial.) -/
def widthNormalize (data : List ℚ) (width : ℕ) : List ℚ :=
  if width < data.length then
    (List.range width).map fun i =>
      bucketMean data (i * data.length / width) ((i + 1) * data.length / width)
  else if data.length < width then
    data ++ List.replicate (width - data.length) (lastOf data)
  else
    data

/-- The whole width-axis treatment of `render_chart_precise`: the `n == 1`
duplication followed by compression/padding. -/
def normalizeData (series : List ℚ) (width : ℕ) : List ℚ :=
  widthNormalize (dupSingle series) width

/-- `span = hi - lo or 1` from `render_chart_precise`: Python's `or` yields
`1` exactly when `hi - lo == 0`. -/
def spanOf (data : List ℚ) : ℚ :=
  if listMax data - listMin data = 0 then 1 else listMax data - listMin data

/-- The row computed for a column value `v` in `render_chart_precise`:
`y = int((val - lo) / span * (height - 1)); y = height - 1 - y`.
At every real call `lo = min(data)` and `span ≥ max(data) - lo`, so the
floored quantity lies in `[0, height-1]` and the `ℕ` truncations are exact. -/
def rowOf (lo span : ℚ) (height : ℕ) (v : ℚ) : ℕ :=
  height - 1 - (⌊(v - lo) / span * ((height : ℚ) - 1)⌋).toNat

/-- `rows = [[" " for _ in range(width)] for _ in range(height)]`. -/
def blankGrid (width height : ℕ) : List (List Char) :=
  List.replicate height (List.replicate width ' ')

/-- `rows[y][x] = "█"`. -/
def setCell (g : List (List Char)) (y x : ℕ) : List (List Char) :=
  g.set y ((g.getD y []).set x '█')

/-- Reading one cell of the character grid (blank when out of range). -/
def cellAt (g : List (List Char)) (y x : ℕ) : Char :=
  (g.getD y []).getD x ' '

/-- `for x, val in enumerate(data): rows[y][x] = "█"` — the drawing loop of
`render_chart_precise`, with `x` the index of the next column. -/
def drawAux (lo span : ℚ) (height : ℕ) :
    List (List Char) → ℕ → List ℚ → List (List Char)
  | g, _, [] => g
  | g, x, v :: vs => drawAux lo span height (setCell g (rowOf lo span height v) x) (x + 1) vs

/-- The character grid built by `render_chart_precise` for a series
(the part between the normalization steps and the final string join). -/
def renderGrid (series : List ℚ) (width height : ℕ) : List (List Char) :=
  drawAux (listMin (normalizeData series width)) (spanOf (normalizeData series width)) height
    (blankGrid width height) 0 (normalizeData series width)

/-- `render_chart_precise(series, width, height)` from `bandwidth.py`:
`""` for an empty series, otherwise the grid joined with newlines. -/
def render_chart_precise (series : List ℚ) (width height : ℕ) : String :=
  if series.isEmpty then ""
  else String.intercalate "\n" ((renderGrid series width height).map fun r => String.mk r)

/-- Modelled from the spec (for comparison only, not from the source): the
"blank grid" output the spec's `n == 0` case describes — exactly `height`
rows of `width` blank cells. -/
def specBlankGrid (width height : ℕ) : String :=
  String.intercalate "\n" (List.replicate height (String.mk (List.replicate width ' ')))

/-!
The ping-monitor statistics state (`pingmon.py`).  Both sampling loops
(`monitor_ping_basic` and `monitor_ping_advanced.poll_loop`) keep the same
counters `sent`/`received`/`lost`, the list of successful latencies used for
mean/stddev, and a latency history deque of capacity `HISTORY_POINTS` that
receives the latency on success and a `0` placeholder on failure.  The
display-only `min`/`max`/`avg` fields are not modelled (no claim mentions
them, and they touch no counter).
-/

/-- The shared mutable statistics of one ping-monitoring session. -/
structure PingStats where
  sent : ℕ
  received : ℕ
  lost : ℕ
  latencies : List ℚ
  history : List ℚ

/-- Initial statistics: all counters zero, empty histories. -/
def pingInit : PingStats :=
  ⟨0, 0, 0, [], []⟩

/-- `deque(maxlen=cap).append(v)`: append on the right, evicting from the
left once the length exceeds the capacity. -/
def pushCap (cap : ℕ) (h : List ℚ) (v : ℚ) : List ℚ :=
  if cap < (h ++ [v]).length then (h ++ [v]).drop ((h ++ [v]).length - cap) else h ++ [v]

/-- One tick of the ping sampling loop: `stats['sent'] += 1`, then on success
(`outcome = some latency`) increment `received`, record the latency, and push
it into the history; on failure (`outcome = none`) increment `lost` and push
the `0` placeholder.  Total in all cases: a failed probe never raises. -/
def pingTick (cap : ℕ) (s : PingStats) (outcome : Option ℚ) : PingStats :=
  match outcome with
  | some lat =>
      { s with
        sent := s.sent + 1
        received := s.received + 1
        latencies := s.latencies ++ [lat]
        history := pushCap cap s.history lat }
  | none =>
      { s with
        sent := s.sent + 1
        lost := s.lost + 1
        history := pushCap cap s.history 0 }

/-- A whole monitoring session over a list of probe outcomes. -/
def runPing (cap : ℕ) (os : List (Option ℚ)) : PingStats :=
  os.foldl (pingTick cap) pingInit

/-- `packet_loss = (stats['lost'] / stats['sent'] * 100) if stats['sent'] > 0
else 0`. -/
def packetLoss (s : PingStats) : ℚ :=
  if 0 < s.sent then (s.lost : ℚ) / (s.sent : ℚ) * 100 else 0

/-- Python `statistics.mean`. -/
def listMean (l : List ℚ) : ℚ :=
  l.sum / (l.length : ℚ)

/-- The square of Python `statistics.stdev` (the sample variance,
`sum((x - mean)^2) / (n - 1)`).  `stdev` itself is its real square root, so
the reported standard deviation is `0` exactly when this value is `0`. -/
def sampleVariance (l : List ℚ) : ℚ :=
  ((l.map fun x => (x - listMean l) ^ 2).sum) / ((l.length : ℚ) - 1)

/-- `std = stdev(latencies) if len(latencies) > 1 else 0`, tracked through
its square (see `sampleVariance`): the reported value is `0` iff this is. -/
def stdevSqReported (l : List ℚ) : ℚ :=
  if 1 < l.length then sampleVariance l else 0

/-! ### Auxiliary lemmas about the grid -/

/-- Writing one cell leaves every other cell unchanged. -/
theorem cellAt_setCell_ne {g : List (List Char)} {y x y' x' : ℕ}
    (h : y ≠ y' ∨ x ≠ x') : cellAt (setCell g y' x') y x = cellAt g y x := by
  unfold cellAt setCell
  by_cases hy : y' = y
  · subst hy
    have hx : x' ≠ x := by
      rcases h with h | h
      · exact absurd rfl h
      · exact fun e => h e.symm
    by_cases hl : y' < g.length
    · simp [List.getD_eq_getElem?_getD, List.getElem?_set_self hl,
        List.getElem?_set_ne hx, List.getElem?_eq_getElem hl]
    · rw [List.set_eq_of_length_le (Nat.le_of_not_lt hl)]
  · simp [List.getD_eq_getElem?_getD, List.getElem?_set_ne hy]

/-- Writing one in-range cell makes that cell the block character. -/
theorem cellAt_setCell_self {g : List (List Char)} {y x : ℕ}
    (hy : y < g.length) (hx : x < (g.getD y []).length) :
    cellAt (setCell g y x) y x = '█' := by
  unfold cellAt setCell
  simp only [List.getD_eq_getElem?_getD] at hx ⊢
  rw [List.getElem?_set_self hy, Option.getD_some, List.getElem?_set_self hx, Option.getD_some]

/-- Well-formedness of a character grid: `height` rows, each of `width`
cells. -/
def GridWF (g : List (List Char)) (width height : ℕ) : Prop :=
  g.length = height ∧ ∀ r ∈ g, r.length = width

theorem gridWF_blank (width height : ℕ) : GridWF (blankGrid width height) width height := by
  refine ⟨by simp [blankGrid], fun r hr => ?_⟩
  rw [List.eq_of_mem_replicate hr]
  simp

theorem gridWF_row_len {g : List (List Char)} {width height y : ℕ}
    (h : GridWF g width height) (hy : y < height) : (g.getD y []).length = width := by
  have hy' : y < g.length := h.1 ▸ hy
  rw [List.getD_eq_getElem?_getD, List.getElem?_eq_getElem hy']
  exact h.2 _ (List.getElem_mem hy')

theorem gridWF_setCell {g : List (List Char)} {width height y x : ℕ}
    (h : GridWF g width height) (hy : y < height) :
    GridWF (setCell g y x) width height := by
  refine ⟨by simp [setCell, h.1], fun r hr => ?_⟩
  rcases List.mem_or_eq_of_mem_set hr with hr | rfl
  · exact h.2 r hr
  · rw [List.length_set]
    exact gridWF_row_len h hy

/-- Every cell of the blank grid is blank. -/
theorem cellAt_blankGrid (width height y x : ℕ) : cellAt (blankGrid width height) y x = ' ' := by
  unfold cellAt blankGrid
  by_cases hy : y < height
  · by_cases hx : x < width
    · simp [List.getD_eq_getElem?_getD, List.getElem?_replicate, hy, hx]
    · simp [List.getD_eq_getElem?_getD, List.getElem?_replicate, hy, hx]
  · simp [List.getD_eq_getElem?_getD, List.getElem?_replicate, hy]

/-- The computed row is always inside the grid. -/
theorem rowOf_lt {lo span : ℚ} {height : ℕ} (hh : 1 ≤ height) (v : ℚ) :
    rowOf lo span height v < height := by
  unfold rowOf
  omega

/-- The minimum value is drawn on the bottom row. -/
theorem rowOf_lo (lo span : ℚ) (height : ℕ) : rowOf lo span height lo = height - 1 := by
  unfold rowOf
  simp

/-- With `span = hi - lo > 0`, the maximum value is drawn on the top row. -/
theorem rowOf_hi {lo hi : ℚ} (height : ℕ) (h : lo < hi) :
    rowOf lo (hi - lo) height hi = 0 := by
  unfold rowOf
  rw [div_self (by linarith : hi - lo ≠ 0), one_mul]
  have hcast : ((height : ℚ) - 1) = (((height : ℤ) - 1 : ℤ) : ℚ) := by push_cast; ring
  rw [hcast, Int.floor_intCast]
  omega

/-- The drawing loop never touches columns left of its starting index. -/
theorem cellAt_drawAux_of_lt {lo span : ℚ} {height : ℕ} (vs : List ℚ) :
    ∀ (g : List (List Char)) (x y0 x0 : ℕ), x0 < x →
      cellAt (drawAux lo span height g x vs) y0 x0 = cellAt g y0 x0 := by
  induction vs with
  | nil => intro g x y0 x0 _; rfl
  | cons v vs ih =>
      intro g x y0 x0 hx
      rw [drawAux, ih _ _ _ _ (Nat.lt_succ_of_lt hx)]
      exact cellAt_setCell_ne (Or.inr (Nat.ne_of_lt hx))

/-- The drawing loop leaves rows untouched that no value maps to. -/
theorem cellAt_drawAux_ne_row {lo span : ℚ} {height : ℕ} (vs : List ℚ) :
    ∀ (g : List (List Char)) (x y0 x0 : ℕ),
      (∀ v ∈ vs, rowOf lo span height v ≠ y0) →
      cellAt (drawAux lo span height g x vs) y0 x0 = cellAt g y0 x0 := by
  induction vs with
  | nil => intro g x y0 x0 _; rfl
  | cons w vs ih =>
      intro g x y0 x0 hrow
      rw [drawAux, ih _ _ _ _ (fun v hv => hrow v (List.mem_cons_of_mem _ hv))]
      exact cellAt_setCell_ne (Or.inl (Ne.symm (hrow w (List.mem_cons_self w vs))))

/-- The drawing loop puts the block character of column `x + i` at the row
computed for the `i`-th value. -/
theorem cellAt_drawAux_draws {lo span : ℚ} {height width : ℕ} (hh : 1 ≤ height) (vs : List ℚ) :
    ∀ (g : List (List Char)) (x : ℕ), GridWF g width height → x + vs.length ≤ width →
      ∀ i v, vs[i]? = some v →
        cellAt (drawAux lo span height g x vs) (rowOf lo span height v) (x + i) = '█' := by
  induction vs with
  | nil => intro g x _ _ i v h; simp at h
  | cons w vs ih =>
      intro g x hwf hle i v hget
      match i with
      | 0 =>
          have hv : w = v := by simpa using hget
          subst hv
          rw [drawAux, cellAt_drawAux_of_lt vs _ _ _ _ (by omega : x + 0 < x + 1)]
          rw [Nat.add_zero]
          apply cellAt_setCell_self
          · rw [hwf.1]; exact rowOf_lt hh w
          · rw [gridWF_row_len hwf (rowOf_lt hh w)]
            simp only [List.length_cons] at hle
            omega
      | i + 1 =>
          rw [drawAux]
          have hwf' : GridWF (setCell g (rowOf lo span height w) x) width height :=
            gridWF_setCell hwf (rowOf_lt hh w)
          have hle' : (x + 1) + vs.length ≤ width := by
            simp only [List.length_cons] at hle; omega
          have hget' : vs[i]? = some v := by simpa using hget
          have := ih _ (x + 1) hwf' hle' i v hget'
          have hx : x + 1 + i = x + (i + 1) := by omega
          rwa [hx] at this

/-! ### Auxiliary lemmas about width normalization -/

theorem dupSingle_of_length_ne_one {l : List ℚ} (h : l.length ≠ 1) : dupSingle l = l := by
  match l with
  | [] => rfl
  | [v] => simp at h
  | a :: b :: t => rfl

theorem dupSingle_length (l : List ℚ) :
    (dupSingle l).length = if l.length = 1 then 2 else l.length := by
  match l with
  | [] => rfl
  | [v] => rfl
  | a :: b :: t => simp [dupSingle]

theorem mem_dupSingle {l : List ℚ} {v : ℚ} (h : v ∈ dupSingle l) : v ∈ l := by
  match l with
  | [] => exact h
  | [w] =>
      simp only [dupSingle] at h
      simp only [List.mem_cons, List.not_mem_nil, or_false] at h
      rcases h with rfl | rfl <;> simp
  | a :: b :: t => exact h

theorem dupSingle_ne_nil {l : List ℚ} (h : l ≠ []) : dupSingle l ≠ [] := by
  match l with
  | [] => exact absurd rfl h
  | [v] => simp [dupSingle]
  | a :: b :: t => simp [dupSingle]

/-- Width normalization always returns exactly `width` columns. -/
theorem widthNormalize_length (data : List ℚ) (width : ℕ) :
    (widthNormalize data width).length = width := by
  unfold widthNormalize
  split
  · simp
  · split
    · next h h' =>
        simp only [List.length_append, List.length_replicate]
        omega
    · next h h' => omega

theorem normalizeData_length (series : List ℚ) (width : ℕ) :
    (normalizeData series width).length = width :=
  widthNormalize_length (dupSingle series) width

/-- Successive bucket boundaries are at least one apart when compressing. -/
theorem bucket_step {n width : ℕ} (i : ℕ) (hw : 0 < width) (hn : width < n) :
    i * n / width + 1 ≤ (i + 1) * n / width := by
  have h1 : i * n + width ≤ (i + 1) * n := by nlinarith
  have h2 : (i * n + width) / width ≤ (i + 1) * n / width := Nat.div_le_div_right h1
  rwa [Nat.add_div_right _ hw] at h2

/-- Bucket start positions stay inside the data when compressing. -/
theorem bucket_start_lt {n width : ℕ} (i : ℕ) (hi : i < width) (hn : width < n) :
    i * n / width < n := by
  have hw : 0 < width := by omega
  have hn0 : 0 < n := by omega
  rw [Nat.div_lt_iff_lt_mul hw]
  calc i * n < width * n := (Nat.mul_lt_mul_right hn0).mpr hi
    _ = n * width := Nat.mul_comm width n

/-- A list all of whose elements equal `c` sums to `length • c`, so its mean
is `c`. -/
theorem mean_flat {l : List ℚ} {c : ℚ} (hne : l.length ≠ 0) (h : ∀ v ∈ l, v = c) :
    l.sum / (l.length : ℚ) = c := by
  have hsum : l.sum = (l.length : ℚ) * c := by
    rw [List.sum_eq_card_nsmul l c h, nsmul_eq_mul]
  rw [hsum, mul_comm, mul_div_assoc, div_self (by exact_mod_cast hne), mul_one]

theorem foldl_min_flat {c : ℚ} (xs : List ℚ) :
    ∀ a : ℚ, a = c → (∀ v ∈ xs, v = c) → xs.foldl min a = c := by
  induction xs with
  | nil => intro a ha _; exact ha
  | cons x xs ih =>
      intro a ha h
      have hx : x = c := h x (List.mem_cons_self x xs)
      exact ih (min a x) (by rw [ha, hx, min_self]) fun v hv => h v (List.mem_cons_of_mem _ hv)

theorem foldl_max_flat {c : ℚ} (xs : List ℚ) :
    ∀ a : ℚ, a = c → (∀ v ∈ xs, v = c) → xs.foldl max a = c := by
  induction xs with
  | nil => intro a ha _; exact ha
  | cons x xs ih =>
      intro a ha h
      have hx : x = c := h x (List.mem_cons_self x xs)
      exact ih (max a x) (by rw [ha, hx, max_self]) fun v hv => h v (List.mem_cons_of_mem _ hv)

theorem listMin_flat {l : List ℚ} {c : ℚ} (hne : l ≠ []) (h : ∀ v ∈ l, v = c) :
    listMin l = c := by
  match l with
  | [] => exact absurd rfl hne
  | x :: xs =>
      exact foldl_min_flat xs x (h x (List.mem_cons_self x xs))
        fun v hv => h v (List.mem_cons_of_mem _ hv)

theorem listMax_flat {l : List ℚ} {c : ℚ} (hne : l ≠ []) (h : ∀ v ∈ l, v = c) :
    listMax l = c := by
  match l with
  | [] => exact absurd rfl hne
  | x :: xs =>
      exact foldl_max_flat xs x (h x (List.mem_cons_self x xs))
        fun v hv => h v (List.mem_cons_of_mem _ hv)

theorem lastOf_mem {l : List ℚ} (hne : l ≠ []) : lastOf l ∈ l := by
  unfold lastOf
  rw [List.getLast?_eq_getLast l hne]
  exact List.getLast_mem hne

/-- Width normalization maps a constant series to a constant series. -/
theorem widthNormalize_flat {data : List ℚ} {width : ℕ} {c : ℚ}
    (hne : data ≠ []) (h : ∀ v ∈ data, v = c) :
    ∀ v ∈ widthNormalize data width, v = c := by
  intro v hv
  unfold widthNormalize at hv
  split at hv
  · next hlt =>
      obtain ⟨i, hi, rfl⟩ := List.mem_map.mp hv
      have hiw : i < width := List.mem_range.mp hi
      have hw : 0 < width := Nat.pos_of_ne_zero (by omega)
      unfold bucketMean
      set s := i * data.length / width with hs
      set e := (i + 1) * data.length / width with he
      have hse : s + 1 ≤ e := bucket_step i hw hlt
      have hsn : s < data.length := bucket_start_lt i hiw hlt
      set chunk := (data.drop s).take (e - s) with hchunk
      have hlen : chunk.length = min (e - s) (data.length - s) := by
        rw [hchunk, List.length_take, List.length_drop]
      have hpos : chunk.length ≠ 0 := by omega
      have hflat : ∀ w ∈ chunk, w = c := fun w hw' =>
        h w (List.mem_of_mem_drop (List.mem_of_mem_take hw'))
      exact mean_flat hpos hflat
  · split at hv
    · rcases List.mem_append.mp hv with hv | hv
      · exact h v hv
      · rw [List.eq_of_mem_replicate hv]
        exact h _ (lastOf_mem hne)
    · exact h v hv

/-- The whole width-axis normalization preserves constancy. -/
theorem normalizeData_flat {series : List ℚ} {width : ℕ} {c : ℚ}
    (hne : series ≠ []) (h : ∀ v ∈ series, v = c) :
    ∀ v ∈ normalizeData series width, v = c :=
  widthNormalize_flat (dupSingle_ne_nil hne) fun v hv => h v (mem_dupSingle hv)

/-! ### Auxiliary lemmas about the ping statistics -/

theorem foldl_pingTick_sent (cap : ℕ) (os : List (Option ℚ)) :
    ∀ s : PingStats, (os.foldl (pingTick cap) s).sent = s.sent + os.length := by
  induction os with
  | nil => intro s; simp
  | cons o os ih =>
      intro s
      rw [List.foldl_cons, ih]
      cases o <;> simp [pingTick] <;> omega

theorem foldl_pingTick_received (cap : ℕ) (os : List (Option ℚ)) :
    ∀ s : PingStats,
      (os.foldl (pingTick cap) s).received = s.received + os.countP (fun o => o.isSome) := by
  induction os with
  | nil => intro s; simp
  | cons o os ih =>
      intro s
      rw [List.foldl_cons, ih, List.countP_cons]
      cases o <;> simp [pingTick] <;> omega

theorem foldl_pingTick_lost (cap : ℕ) (os : List (Option ℚ)) :
    ∀ s : PingStats,
      (os.foldl (pingTick cap) s).lost = s.lost + os.countP (fun o => o.isNone) := by
  induction os with
  | nil => intro s; simp
  | cons o os ih =>
      intro s
      rw [List.foldl_cons, ih, List.countP_cons]
      cases o <;> simp [pingTick] <;> omega

theorem foldl_pingTick_latlen (cap : ℕ) (os : List (Option ℚ)) :
    ∀ s : PingStats,
      (os.foldl (pingTick cap) s).latencies.length =
        s.latencies.length + os.countP (fun o => o.isSome) := by
  induction os with
  | nil => intro s; simp
  | cons o os ih =>
      intro s
      rw [List.foldl_cons, ih, List.countP_cons]
      cases o <;> simp [pingTick] <;> omega

/-- Every probe outcome is either a success or a failure, so the two counts
partition the tick count. -/
theorem countP_some_add_none (os : List (Option ℚ)) :
    os.countP (fun o => o.isSome) + os.countP (fun o => o.isNone) = os.length := by
  induction os with
  | nil => rfl
  | cons o os ih =>
      rw [List.countP_cons, List.countP_cons]
      cases o <;> simp <;> omega

/-- The `deque.append` model keeps the newest element as the last one,
whenever the capacity is at least one. -/
theorem getLast?_pushCap {cap : ℕ} (hcap : 1 ≤ cap) (h : List ℚ) (v : ℚ) :
    (pushCap cap h v).getLast? = some v := by
  unfold pushCap
  split
  · next hlt =>
      rw [List.drop_append_of_le_length (by simp; omega)]
      exact List.getLast?_concat _
  · exact List.getLast?_concat _

/-! ### Claims -/

/-- C1: for every sample sequence of length `n > width` (`width ≥ 1`), width
normalization produces exactly `width` output columns, where column `i` is
the arithmetic mean of the contiguous bucket
`data[⌊i·n/width⌋ .. ⌊(i+1)·n/width⌋)`; in particular `[0,…,9]` at width `5`
yields `[0.5, 2.5, 4.5, 6.5, 8.5]`. -/
theorem claim1_downsample_bucket_means (series : List ℚ) (width : ℕ)
    (hw : 1 ≤ width) (hn : width < series.length) :
    (normalizeData series width).length = width ∧
    (∀ i, i < width →
      (normalizeData series width)[i]? =
        some (((series.drop (i * series.length / width)).take
                ((i + 1) * series.length / width - i * series.length / width)).sum /
              (((series.drop (i * series.length / width)).take
                ((i + 1) * series.length / width - i * series.length / width)).length : ℚ))) ∧
    normalizeData [0, 1, 2, 3, 4, 5, 6, 7, 8, 9] 5 = [1/2, 5/2, 9/2, 13/2, 17/2] := by
  have hdup : dupSingle series = series := dupSingle_of_length_ne_one (by omega)
  refine ⟨normalizeData_length series width, ?_, ?_⟩
  · intro i hi
    unfold normalizeData
    rw [hdup]
    unfold widthNormalize
    rw [if_pos hn]
    simp only [List.getElem?_map, List.getElem?_range hi, Option.map_some']
    rfl
  · norm_num [normalizeData, widthNormalize, dupSingle, bucketMean, List.range_succ]

theorem claim1_downsample_bucket_means_witness :
    1 ≤ 5 ∧ 5 < ([0, 1, 2, 3, 4, 5, 6, 7, 8, 9] : List ℚ).length ∧
    normalizeData [0, 1, 2, 3, 4, 5, 6, 7, 8, 9] 5 = [1/2, 5/2, 9/2, 13/2, 17/2] :=
  ⟨by norm_num, by norm_num,
    (claim1_downsample_bucket_means [0, 1, 2, 3, 4, 5, 6, 7, 8, 9] 5 (by norm_num)
      (by norm_num)).2.2⟩

/-- C2: for non-negative counter readings and positive elapsed time, the
counter-delta computation returns `(curr - prev) / t` when `curr ≥ prev` and
`curr / t` on wraparound (`curr < prev`), and the rate is never negative. -/
theorem claim2_counter_delta (prev curr t : ℚ) (hp : 0 ≤ prev) (hc : 0 ≤ curr) (ht : 0 < t) :
    (prev ≤ curr → counterDelta prev curr t = (curr - prev) / t) ∧
    (curr < prev → counterDelta prev curr t = curr / t) ∧
    0 ≤ counterDelta prev curr t := by
  unfold counterDelta safe_diff
  refine ⟨fun h => by rw [if_neg (not_lt.mpr h)], fun h => by rw [if_pos h], ?_⟩
  by_cases h : curr < prev
  · rw [if_pos h]
    exact div_nonneg hc ht.le
  · rw [if_neg h]
    exact div_nonneg (by linarith [not_lt.mp h]) ht.le

theorem claim2_counter_delta_witness :
    (0 : ℚ) ≤ 7 ∧ (0 : ℚ) ≤ 3 ∧ (0 : ℚ) < 2 ∧
    counterDelta 7 3 2 = 3 / 2 ∧ 0 ≤ counterDelta 7 3 2 :=
  ⟨by norm_num, by norm_num, by norm_num,
    (claim2_counter_delta 7 3 2 (by norm_num) (by norm_num) (by norm_num)).2.1 (by norm_num),
    (claim2_counter_delta 7 3 2 (by norm_num) (by norm_num) (by norm_num)).2.2⟩

/-- C3 as stated is false: the code floors (`int(...)`), it does not round.
For the series `[0, 8, 10]` (span `[0,10]`, width 3, height 3) the claim
places column 1 (value 8) at row `3 - 1 - round(1.6) = 0`, but that cell is
blank in the rendered grid; the block is at row `3 - 1 - ⌊1.6⌋ = 1`. -/
theorem claim3_round_counterexample :
    3 - 1 - (round (((8 : ℚ) - 0) / 10 * (3 - 1))).toNat = 0 ∧
    cellAt (renderGrid [0, 8, 10] 3 3) 0 1 = ' ' ∧
    cellAt (renderGrid [0, 8, 10] 3 3) 1 1 = '█' := by
  refine ⟨by norm_num [round_eq], ?_, ?_⟩ <;>
    norm_num [renderGrid, normalizeData, widthNormalize, dupSingle, listMin, listMax, spanOf,
      drawAux, rowOf, setCell, cellAt, blankGrid, List.replicate]

/-- C3 (amended): for every non-empty width-normalized sequence with
`span = max - min > 0` and `height ≥ 2`, each column value `v` is drawn at
row `height - 1 - ⌊(v - min)/span · (height - 1)⌋` (floor, not round); the
minimum maps to the bottom row `height - 1`, the maximum to the top row `0`,
and for data spanning `[0, 10]` with `height = 3` the value `5` maps to the
middle row. -/
theorem claim3_floor_row_mapping (series : List ℚ) (width height : ℕ)
    (hne : series ≠ []) (hh : 2 ≤ height)
    (hspan : listMin (normalizeData series width) < listMax (normalizeData series width)) :
    spanOf (normalizeData series width) =
      listMax (normalizeData series width) - listMin (normalizeData series width) ∧
    (∀ x v, (normalizeData series width)[x]? = some v →
      cellAt (renderGrid series width height)
        (rowOf (listMin (normalizeData series width))
          (spanOf (normalizeData series width)) height v) x = '█') ∧
    rowOf (listMin (normalizeData series width)) (spanOf (normalizeData series width)) height
      (listMin (normalizeData series width)) = height - 1 ∧
    rowOf (listMin (normalizeData series width)) (spanOf (normalizeData series width)) height
      (listMax (normalizeData series width)) = 0 ∧
    rowOf 0 10 3 5 = 1 := by
  have hs : spanOf (normalizeData series width) =
      listMax (normalizeData series width) - listMin (normalizeData series width) := by
    unfold spanOf
    rw [if_neg (by intro h; linarith [sub_eq_zero.mp h])]
  refine ⟨hs, ?_, rowOf_lo _ _ _, ?_, ?_⟩
  · intro x v hget
    have hx : x < (normalizeData series width).length := by
      by_contra hcon
      rw [List.getElem?_eq_none (by omega)] at hget
      exact Option.noConfusion hget
    have hlen := normalizeData_length series width
    have := @cellAt_drawAux_draws (listMin (normalizeData series width))
      (spanOf (normalizeData series width)) height width (by omega)
      (normalizeData series width) (blankGrid width height) 0
      (gridWF_blank width height) (by omega) x v hget
    rwa [Nat.zero_add] at this
  · rw [hs]
    exact rowOf_hi height hspan
  · norm_num [rowOf]

theorem claim3_floor_row_mapping_witness :
    ([0, 8, 10] : List ℚ) ≠ [] ∧ rowOf 0 10 3 5 = 1 :=
  ⟨by simp,
    (claim3_floor_row_mapping [0, 8, 10] 3 3 (by simp) (by norm_num)
      (by norm_num [normalizeData, widthNormalize, dupSingle, listMin, listMax])).2.2.2.2⟩

/-- C4: for every sample sequence of length `1 ≤ n < width`, width
normalization duplicates a lone value and then right-pads with the last
value until the length equals `width`; in particular `[3, 7]` at width `5`
yields `[3, 7, 7, 7, 7]`. -/
theorem claim4_upsample_pad (series : List ℚ) (width : ℕ)
    (h1 : 1 ≤ series.length) (hlt : series.length < width) :
    normalizeData series width =
      dupSingle series ++
        List.replicate (width - (dupSingle series).length) (lastOf (dupSingle series)) ∧
    (normalizeData series width).length = width ∧
    normalizeData [3, 7] 5 = [3, 7, 7, 7, 7] := by
  refine ⟨?_, normalizeData_length series width, ?_⟩
  · have hdl : (dupSingle series).length ≤ width := by
      rw [dupSingle_length]
      split <;> omega
    unfold normalizeData widthNormalize
    rw [if_neg (by omega)]
    by_cases hlt2 : (dupSingle series).length < width
    · rw [if_pos hlt2]
    · rw [if_neg hlt2]
      have h0 : width - (dupSingle series).length = 0 := by omega
      rw [h0, List.replicate_zero, List.append_nil]
  · norm_num [normalizeData, widthNormalize, dupSingle, lastOf, List.replicate]

theorem claim4_upsample_pad_witness :
    1 ≤ ([3, 7] : List ℚ).length ∧ ([3, 7] : List ℚ).length < 5 ∧
    normalizeData [3, 7] 5 = [3, 7, 7, 7, 7] :=
  ⟨by norm_num, by norm_num, (claim4_upsample_pad [3, 7] 5 (by norm_num) (by norm_num)).2.2⟩

/-- C5's "single centered row" is false: the flat series `[5, 5]` at height 3
renders on the bottom row (index 2), while the centered row (index 1) is
blank. -/
theorem claim5_centered_counterexample :
    cellAt (renderGrid [5, 5] 2 3) 1 0 = ' ' ∧ cellAt (renderGrid [5, 5] 2 3) 1 1 = ' ' ∧
    cellAt (renderGrid [5, 5] 2 3) 2 0 = '█' ∧ cellAt (renderGrid [5, 5] 2 3) 2 1 = '█' := by
  refine ⟨?_, ?_, ?_, ?_⟩ <;>
    norm_num [renderGrid, normalizeData, widthNormalize, dupSingle, listMin, listMax, spanOf,
      drawAux, rowOf, setCell, cellAt, blankGrid, List.replicate]

/-- C5 (amended): for every constant non-empty series the height
normalization substitutes `span = 1` instead of dividing by zero, and the
series renders as a single row — the bottom row `height - 1`, not a centered
one: every column of that row carries the block and every other row is
blank. -/
theorem claim5_flat_span_bottom (series : List ℚ) (width height : ℕ) (c : ℚ)
    (hne : series ≠ []) (hh : 1 ≤ height) (hflat : ∀ v ∈ series, v = c) :
    spanOf (normalizeData series width) = 1 ∧
    (∀ x, x < width → cellAt (renderGrid series width height) (height - 1) x = '█') ∧
    (∀ y x, y ≠ height - 1 → cellAt (renderGrid series width height) y x = ' ') := by
  have hdata : ∀ v ∈ normalizeData series width, v = c := normalizeData_flat hne hflat
  have hlen := normalizeData_length series width
  have hspan : spanOf (normalizeData series width) = 1 := by
    unfold spanOf
    by_cases hd : normalizeData series width = []
    · rw [hd]
      norm_num [listMin, listMax]
    · rw [listMin_flat hd hdata, listMax_flat hd hdata, sub_self, if_pos rfl]
  refine ⟨hspan, ?_, ?_⟩
  · intro x hx
    have hxlen : x < (normalizeData series width).length := by omega
    have hd : normalizeData series width ≠ [] := by
      intro h
      rw [h] at hxlen
      simp at hxlen
    have hne' : (normalizeData series width)[x]? ≠ none := by
      rw [ne_eq, List.getElem?_eq_none_iff]
      omega
    obtain ⟨v, hget⟩ := Option.ne_none_iff_exists'.mp hne'
    have hv : v = c := hdata v (List.getElem?_mem hget)
    have hlo : listMin (normalizeData series width) = c := listMin_flat hd hdata
    have hrow : rowOf (listMin (normalizeData series width))
        (spanOf (normalizeData series width)) height v = height - 1 := by
      rw [hv, hlo]
      exact rowOf_lo c _ height
    have := @cellAt_drawAux_draws (listMin (normalizeData series width))
      (spanOf (normalizeData series width)) height width hh
      (normalizeData series width) (blankGrid width height) 0
      (gridWF_blank width height) (by omega) x v hget
    rw [Nat.zero_add, hrow] at this
    exact this
  · intro y x hy
    have hrows : ∀ v ∈ normalizeData series width,
        rowOf (listMin (normalizeData series width))
          (spanOf (normalizeData series width)) height v ≠ y := by
      intro v hv
      have hd : normalizeData series width ≠ [] := List.ne_nil_of_mem hv
      rw [hdata v hv, listMin_flat hd hdata, rowOf_lo]
      exact fun h => hy h.symm
    unfold renderGrid
    rw [cellAt_drawAux_ne_row _ _ _ _ _ hrows]
    exact cellAt_blankGrid width height y x

theorem claim5_flat_span_bottom_witness :
    ([5, 5] : List ℚ) ≠ [] ∧ spanOf (normalizeData [5, 5] 2) = 1 ∧
    cellAt (renderGrid [5, 5] 2 3) 2 0 = '█' := by
  have h := claim5_flat_span_bottom [5, 5] 2 3 5 (by simp) (by norm_num)
    (by
      intro v hv
      simp only [List.mem_cons, List.not_mem_nil, or_false] at hv
      rcases hv with rfl | rfl <;> rfl)
  exact ⟨by simp, h.1, h.2.1 0 (by norm_num)⟩

/-- C6 as stated is false at width 5, height 3: the renderer returns the
empty string — zero rows — for an empty series, not a 3-row × 5-column blank
grid. -/
theorem claim6_blank_grid_counterexample :
    render_chart_precise [] 5 3 = "" ∧ render_chart_precise [] 5 3 ≠ specBlankGrid 5 3 :=
  ⟨rfl, by decide⟩

/-- C6 (amended): for input of length `0` the renderer returns the empty
string (the `if not series: return ""` guard), not a `height × width` blank
grid. -/
theorem claim6_empty_renders_empty_string (width height : ℕ) :
    render_chart_precise [] width height = "" := rfl

/-- C7: at every point of a monitoring session the reported loss rate is
`lost / sent * 100` when `sent > 0` and `0` otherwise (equivalently, the
failure count over the tick count); after `sent = 5` with 3 successes the
loss rate is `40`; and the reported standard deviation is `0` whenever fewer
than 2 successful samples have been received. -/
theorem claim7_loss_rate_and_stddev (cap : ℕ) (os : List (Option ℚ)) :
    packetLoss (runPing cap os) =
      (if 0 < os.length then
        ((os.countP fun o => o.isNone : ℕ) : ℚ) / ((os.length : ℕ) : ℚ) * 100 else 0) ∧
    (os.length = 5 → (os.countP fun o => o.isSome) = 3 → packetLoss (runPing cap os) = 40) ∧
    ((runPing cap os).received < 2 → stdevSqReported (runPing cap os).latencies = 0) := by
  have hsent : (runPing cap os).sent = os.length := by
    unfold runPing
    rw [foldl_pingTick_sent]
    simp [pingInit]
  have hlost : (runPing cap os).lost = os.countP fun o => o.isNone := by
    unfold runPing
    rw [foldl_pingTick_lost]
    simp [pingInit]
  have hrecv : (runPing cap os).received = os.countP fun o => o.isSome := by
    unfold runPing
    rw [foldl_pingTick_received]
    simp [pingInit]
  have hlat : (runPing cap os).latencies.length = (runPing cap os).received := by
    unfold runPing
    rw [foldl_pingTick_latlen, foldl_pingTick_received]
    simp [pingInit]
  refine ⟨?_, ?_, ?_⟩
  · unfold packetLoss
    rw [hsent, hlost]
  · intro h5 h3
    have hcount := countP_some_add_none os
    rw [h5, h3] at hcount
    unfold packetLoss
    rw [hsent, hlost, h5, if_pos (by norm_num)]
    have hn : (os.countP fun o => o.isNone) = 2 := by omega
    rw [hn]
    norm_num
  · intro h2
    unfold stdevSqReported
    rw [if_neg (by omega)]

theorem claim7_loss_rate_and_stddev_witness :
    ([some 1, some 2, none, some 3, none] : List (Option ℚ)).length = 5 ∧
    (([some 1, some 2, none, some 3, none] : List (Option ℚ)).countP fun o => o.isSome) = 3 ∧
    packetLoss (runPing 10 [some 1, some 2, none, some 3, none]) = 40 :=
  ⟨by decide, by decide,
    (claim7_loss_rate_and_stddev 10 [some 1, some 2, none, some 3, none]).2.1
      (by decide) (by decide)⟩

/-- C8: a failed probe is recorded by incrementing `lost` and appending a
zero placeholder to the latency history (keeping the timeline aligned with
ticks), while `received` and the latency statistics are untouched; the loop
is total and processes every subsequent tick (`sent` counts all ticks). -/
theorem claim8_failure_recorded (cap : ℕ) (s : PingStats) (hcap : 1 ≤ cap) :
    (pingTick cap s none).sent = s.sent + 1 ∧
    (pingTick cap s none).lost = s.lost + 1 ∧
    (pingTick cap s none).received = s.received ∧
    (pingTick cap s none).latencies = s.latencies ∧
    (pingTick cap s none).history = pushCap cap s.history 0 ∧
    (pingTick cap s none).history.getLast? = some 0 ∧
    (∀ os : List (Option ℚ), (runPing cap os).sent = os.length) := by
  refine ⟨rfl, rfl, rfl, rfl, rfl, getLast?_pushCap hcap s.history 0, ?_⟩
  intro os
  unfold runPing
  rw [foldl_pingTick_sent]
  simp [pingInit]

theorem claim8_failure_recorded_witness :
    1 ≤ 3 ∧ (pingTick 3 pingInit none).lost = pingInit.lost + 1 ∧
    (pingTick 3 pingInit none).history.getLast? = some 0 :=
  ⟨by norm_num, (claim8_failure_recorded 3 pingInit (by norm_num)).2.1,
    (claim8_failure_recorded 3 pingInit (by norm_num)).2.2.2.2.2.1⟩

/-- C9: a sequence whose length already equals the target width (with
`n ≥ 2`) passes through width normalization unchanged. -/
theorem claim9_width_match_identity (series : List ℚ) (width : ℕ)
    (h2 : 2 ≤ series.length) (heq : series.length = width) :
    normalizeData series width = series := by
  unfold normalizeData
  rw [dupSingle_of_length_ne_one (by omega)]
  unfold widthNormalize
  rw [if_neg (by omega), if_neg (by omega)]

theorem claim9_width_match_identity_witness :
    2 ≤ ([4, 9] : List ℚ).length ∧ ([4, 9] : List ℚ).length = 2 ∧
    normalizeData [4, 9] 2 = [4, 9] :=
  ⟨by norm_num, by norm_num, claim9_width_match_identity [4, 9] 2 (by norm_num) (by norm_num)⟩

/-- C10: after every processed sample `sent = received + lost`; each tick
increments `sent` by exactly one and exactly one of `received`/`lost` by
exactly one. -/
theorem claim10_counter_invariant (cap : ℕ) (os : List (Option ℚ)) :
    (runPing cap os).sent = (runPing cap os).received + (runPing cap os).lost ∧
    (∀ (s : PingStats) (o : Option ℚ),
      (pingTick cap s o).sent = s.sent + 1 ∧
      (pingTick cap s o).received + (pingTick cap s o).lost = s.received + s.lost + 1) := by
  constructor
  · unfold runPing
    rw [foldl_pingTick_sent, foldl_pingTick_received, foldl_pingTick_lost]
    have := countP_some_add_none os
    simp only [pingInit]
    omega
  · intro s o
    cases o
    · exact ⟨rfl, by simp [pingTick]; omega⟩
    · exact ⟨rfl, by simp [pingTick]; omega⟩

end Bandping
